import Mathlib

/-!
# Verification of the SimpleML_EA signal ingestion and order execution core

This file gives a shallow embedding of the poll/parse/normalize/execute
pipeline of `SimpleML_EA.mq5` and proves the specified properties about it.

Strings are modelled as `List Char`.  Positions are natural numbers; the
MQL5 convention of returning `-1` from `StringFind` on failure is modelled
by `Option Nat`.  MQL5 `double` values are modelled as rationals (`ℚ`);
`StringToDouble` is modelled as the total function parsing an optional
sign, an integer digit run and an optional fractional digit run, yielding
`0` on text with no leading numeric part (exponents do not occur in any
payload considered here).  `NormalizeDouble` is modelled as rounding to
the given number of decimal digits.  `SymbolInfoInteger(sym, SYMBOL_DIGITS)`
is modelled through a `Venue` precision map; a failed lookup returns `0`,
which is MQL5's return value for a failed `SymbolInfoInteger` call.
-/

/-- The opening curly bracket character. -/
def lbrace : Char := Char.ofNat 123

/-- The closing curly bracket character. -/
def rbrace : Char := Char.ofNat 125

/-- The double-quote character. -/
def qc : Char := Char.ofNat 34

/-- Whitespace in the sense of MQL5 `StringTrimLeft` / `StringTrimRight`:
space, tab, carriage return, line feed. -/
def isWsp (c : Char) : Bool := c = ' ' || c = '\t' || c = '\n' || c = '\r'

/-- Model of MQL5 `StringTrimLeft`. -/
def trimLeftL (l : List Char) : List Char := l.dropWhile isWsp

/-- Model of MQL5 `StringTrimRight`. -/
def trimRightL (l : List Char) : List Char := (l.reverse.dropWhile isWsp).reverse

/-- `StringTrimLeft` followed by `StringTrimRight`, the combination used by
`ParseSingleTrade`. -/
def trimBoth (l : List Char) : List Char := trimRightL (trimLeftL l)

/-- Index of the first occurrence of `p` in `l` (`none` if `p` never occurs). -/
def firstMatch (p : List Char) : List Char → Option Nat
  | [] => if p.isEmpty then some 0 else none
  | c :: t => if p.isPrefixOf (c :: t) then some 0 else (firstMatch p t).map (· + 1)

/-- Model of MQL5 `StringFind hay p s`: index of the first occurrence of `p`
in `hay` at a position `≥ s`; `none` models the return value `-1`. -/
def findFrom (hay p : List Char) (s : Nat) : Option Nat :=
  (firstMatch p (hay.drop s)).map (· + s)

/-- Model of MQL5 `StringSubstr l s len`. -/
def substr (l : List Char) (s len : Nat) : List Char := (l.drop s).take len

/-- Whether `p` occurs somewhere in `l` (MQL5 `StringFind p ≥ 0`). -/
def hasTok (p l : List Char) : Bool := (firstMatch p l).isSome

/-- Numeric value of a digit character. -/
def digitToNat (c : Char) : Nat := c.toNat - 48

/-- Value of a digit run, most significant digit first. -/
def natOfDigits (l : List Char) : Nat := l.foldl (fun a c => 10 * a + digitToNat c) 0

/-- The unsigned part of the `StringToDouble` conversion: a leading digit
run, optionally followed by a point and a fractional digit run; the value
is `0` when no leading digit run or fraction is present. -/
def magnitude (l : List Char) : ℚ :=
  let ip := l.takeWhile Char.isDigit
  let r1 := l.dropWhile Char.isDigit
  let fp : List Char :=
    match r1 with
    | c :: t => if c = '.' then t.takeWhile Char.isDigit else []
    | [] => []
  (natOfDigits ip : ℚ) + (natOfDigits fp : ℚ) / (10 : ℚ) ^ fp.length

/-- Model of MQL5 `StringToDouble`: optional sign, digit run, optional
point and fractional digit run; anything else terminates the parse, and a
fully non-numeric text yields `0`. -/
def stringToDouble (l : List Char) : ℚ :=
  match l with
  | c :: t =>
    if c = '-' then -(magnitude t) else if c = '+' then magnitude t else magnitude (c :: t)
  | [] => magnitude []

/-- The key text searched for the instrument identifier field. -/
def symbolKey : List Char := ("\x22symbol\x22:").toList

/-- The key text searched for the entry price field. -/
def entryKey : List Char := ("\x22entry_price\x22:").toList

/-- The key text searched for the stop-loss price field. -/
def slKey : List Char := ("\x22sl_price\x22:").toList

/-- The key text searched for the take-profit price field. -/
def tpKey : List Char := ("\x22tp_price\x22:").toList

/-- The key text searched for the position size field. -/
def lotKey : List Char := ("\x22lot_size\x22:").toList

/-- The key text searched for the direction flag field. -/
def isBuyKey : List Char := ("\x22is_buy\x22:").toList

/-- The lowercase token tested for by the direction decision. -/
def trueTok : List Char := ("true").toList

/-- The symbol step of `ParseSingleTrade` (source lines 39-46): find the
symbol key, then the opening quote from `pos + 9`, then the closing quote;
fail if any find fails or the quoted region is empty. -/
def symStep (j : List Char) (p0 : Nat) : Option (List Char × Nat) :=
  match findFrom j symbolKey p0 with
  | none => none
  | some pos =>
    match findFrom j [qc] (pos + 9) with
    | none => none
    | some s0 =>
      match findFrom j [qc] (s0 + 1) with
      | none => none
      | some e =>
        if e ≤ s0 + 1 then none
        else some (substr j (s0 + 1) (e - (s0 + 1)), e)

/-- A numeric field step of `ParseSingleTrade` (source lines 48-90): find
the key from the previous field's end, find the colon, isolate the text up
to the next comma (or closing bracket when no comma follows), trim it and
convert with `StringToDouble`.  Fails when the key or the colon is missing,
or when no terminator follows, or when the isolated region is empty. -/
def numStep (key : List Char) (j : List Char) (prev : Nat) : Option (ℚ × Nat) :=
  match findFrom j key prev with
  | none => none
  | some pos =>
    match findFrom j [':'] pos with
    | none => none
    | some q =>
      let s := q + 1
      let eOpt : Option Nat :=
        match findFrom j [','] s with
        | some e => some e
        | none => findFrom j [rbrace] s
      match eOpt with
      | none => none
      | some e =>
        if e ≤ s then none
        else some (stringToDouble (trimBoth (substr j s (e - s))), e)

/-- The direction step of `ParseSingleTrade` (source lines 92-98): find the
key and the colon, take exactly five characters after the colon, trim, and
test whether the window contains the token `true`.  Never fails once the
key and colon are found. -/
def buyStep (j : List Char) (prev : Nat) : Option Bool :=
  match findFrom j isBuyKey prev with
  | none => none
  | some pos =>
    match findFrom j [':'] pos with
    | none => none
    | some q => some (hasTok trueTok (trimBoth (substr j (q + 1) 5)))

/-- The parsed trade instruction (the out-parameters of `ParseSingleTrade`). -/
structure TradeSignal where
  symbol : List Char
  entry : ℚ
  sl : ℚ
  tp : ℚ
  lot : ℚ
  isBuy : Bool
deriving DecidableEq, Repr

/-- Model of `ParseSingleTrade` (source lines 33-101): the six field steps
chained in declared order, each searching from the end of the previous
field's match; `none` models the `false` return. -/
def ParseSingleTrade (j : List Char) (startPos : Nat) : Option TradeSignal :=
  (symStep j startPos).bind (fun a =>
  (numStep entryKey j a.2).bind (fun b =>
  (numStep slKey j b.2).bind (fun c =>
  (numStep tpKey j c.2).bind (fun d =>
  (numStep lotKey j d.2).bind (fun f =>
  (buyStep j f.2).map (fun g =>
    ⟨a.1, b.1, c.1, d.1, f.1, g⟩))))))

/-- One numeric field step of the chain, threaded through `Option`. -/
def chainStep (j : List Char) (eo : Option Nat) (key : List Char) : Option Nat :=
  eo.bind (fun e => (numStep key j e).map Prod.snd)

/-- End position after successfully parsing fields `0..i` of the chain
(0 = symbol, 1 = entry, 2 = stop-loss, 3 = take-profit, 4 = lot). -/
def chainEnd (j : List Char) (p : Nat) (i : Nat) : Option Nat :=
  if 4 < i then none
  else ([entryKey, slKey, tpKey, lotKey].take i).foldl (chainStep j)
    ((symStep j p).map Prod.snd)

/-- The key searched by the field following chain position `i`. -/
def nextKey : Nat → List Char
  | 0 => entryKey
  | 1 => slKey
  | 2 => tpKey
  | 3 => lotKey
  | _ => isBuyKey

/-- The execution venue's per-instrument precision metadata
(`SymbolInfoInteger` with `SYMBOL_DIGITS`); `none` models a failed lookup
for an unknown instrument. -/
structure Venue where
  precision : List Char → Option Nat

/-- The digit count the code actually uses: MQL5 `SymbolInfoInteger`
returns `0` when the lookup fails, and the code does not check for it. -/
def symbolDigits (v : Venue) (sym : List Char) : Nat := (v.precision sym).getD 0

/-- Model of MQL5 `NormalizeDouble`: round to `d` decimal digits. -/
def normalizeDouble (x : ℚ) (d : Nat) : ℚ :=
  ((round (x * (10 : ℚ) ^ d) : ℤ) : ℚ) / (10 : ℚ) ^ d

/-- The fixed comment string attached to every submitted order. -/
def tradeComment : List Char := ("ML_EA").toList

/-- An order request as passed to `trade.Buy` / `trade.Sell`. -/
structure Order where
  isBuy : Bool
  lot : ℚ
  symbol : List Char
  entry : ℚ
  sl : ℚ
  tp : ℚ
  comment : List Char
deriving DecidableEq, Repr

/-- Outcome of one `OnTimer` cycle: abort at the transport gate, abort
because no object-opening bracket was found, abort on parse failure, or a
single submission to the execution venue. -/
inductive CycleResult where
  | transportFail : CycleResult
  | noObject : CycleResult
  | parseFail : CycleResult
  | submitted : Order → CycleResult
deriving DecidableEq, Repr

/-- Model of `OnTimer` (source lines 103-134), parameterised by the venue
and by the transport response (status code and body).  A non-200 status
returns before the body is examined; then the first opening bracket is
located, the single trade is parsed, prices are normalized to the digit
count reported by the venue, and exactly one order is submitted. -/
def onTimer (v : Venue) (status : Int) (body : List Char) : CycleResult :=
  if status ≠ 200 then CycleResult.transportFail
  else
    match findFrom body [lbrace] 0 with
    | none => CycleResult.noObject
    | some pos =>
      match ParseSingleTrade body pos with
      | none => CycleResult.parseFail
      | some sig =>
        let d := symbolDigits v sig.symbol
        CycleResult.submitted
          ⟨sig.isBuy, sig.lot, sig.symbol,
           normalizeDouble sig.entry d, normalizeDouble sig.sl d,
           normalizeDouble sig.tp d, tradeComment⟩

/-- The orders submitted to the execution venue in one cycle (the
`place_order` call count is its length). -/
def submissions : CycleResult → List Order
  | CycleResult.submitted o => [o]
  | _ => []

/-! ## Basic lemmas about the string-scanning primitives -/

theorem firstMatch_isPrefix {p l : List Char} {i : Nat}
    (h : firstMatch p l = some i) : p.isPrefixOf (l.drop i) = true := by
  induction l generalizing i with
  | nil =>
    rw [firstMatch] at h
    by_cases hp : p.isEmpty = true
    · rw [if_pos hp, Option.some.injEq] at h
      subst h
      rw [List.isEmpty_iff] at hp
      simp [hp]
    · rw [if_neg hp] at h
      exact absurd h (by simp)
  | cons c t ih =>
    rw [firstMatch] at h
    by_cases hc : p.isPrefixOf (c :: t) = true
    · rw [if_pos hc, Option.some.injEq] at h
      subst h
      simpa using hc
    · rw [if_neg hc, Option.map_eq_some'] at h
      obtain ⟨i', hi', rfl⟩ := h
      simpa [List.drop_succ_cons] using ih hi'

theorem firstMatch_none_iff (p l : List Char) :
    firstMatch p l = none ↔ ∀ i, ¬ p.isPrefixOf (l.drop i) = true := by
  induction l with
  | nil =>
    rw [firstMatch]
    by_cases hp : p.isEmpty = true
    · rw [if_pos hp]
      rw [List.isEmpty_iff] at hp
      constructor
      · intro h; exact absurd h (by simp)
      · intro h; exact absurd (h 0) (by simp [hp])
    · rw [if_neg hp]
      constructor
      · intro _ i
        simp only [List.drop_nil]
        intro hcon
        rw [ List.isPrefixOf_iff_prefix, List.prefix_nil] at hcon
        rw [List.isEmpty_iff] at hp
        exact hp hcon
      · intro _; rfl
  | cons c t ih =>
    rw [firstMatch]
    by_cases hc : p.isPrefixOf (c :: t) = true
    · rw [if_pos hc]
      constructor
      · intro h; exact absurd h (by simp)
      · intro h; exact absurd hc (by simpa using h 0)
    · rw [if_neg hc, Option.map_eq_none', ih]
      constructor
      · intro h i
        cases i with
        | zero => simpa using hc
        | succ n => simpa [List.drop_succ_cons] using h n
      · intro h i
        simpa [List.drop_succ_cons] using h (i + 1)

theorem firstMatch_cons_not {p : List Char} {c : Char} {l : List Char}
    (h : ¬ p.isPrefixOf (c :: l) = true) :
    firstMatch p (c :: l) = (firstMatch p l).map (· + 1) := by
  rw [firstMatch, if_neg h]

theorem not_prefixOf_head {a b : Char} (q l : List Char) (h : a ≠ b) :
    ¬ (a :: q).isPrefixOf (b :: l) = true := by
  intro hh
  rw [ List.isPrefixOf_iff_prefix] at hh
  obtain ⟨t, ht⟩ := hh
  rw [List.cons_append] at ht
  injection ht with h1 _
  exact h h1

theorem not_prefixOf_two {a b : Char} (q : List Char) {c d : Char} (l : List Char)
    (h : b ≠ d) : ¬ (a :: b :: q).isPrefixOf (c :: d :: l) = true := by
  intro hh
  rw [ List.isPrefixOf_iff_prefix] at hh
  obtain ⟨t, ht⟩ := hh
  rw [List.cons_append, List.cons_append] at ht
  injection ht with _ ht'
  injection ht' with h2 _
  exact h h2

theorem firstMatch_here (p r : List Char) : firstMatch p (p ++ r) = some 0 := by
  cases p with
  | nil =>
    cases r with
    | nil => rw [List.nil_append, firstMatch]; rfl
    | cons c t =>
      rw [List.nil_append, firstMatch, if_pos]
      rw [ List.isPrefixOf_iff_prefix]
      exact List.nil_prefix
  | cons a q =>
    have h : (a :: q).isPrefixOf ((a :: q) ++ r) = true :=
      List.isPrefixOf_iff_prefix.mpr (List.prefix_append _ _)
    rw [List.cons_append] at h ⊢
    rw [firstMatch, if_pos h]

theorem firstMatch_char {ch : Char} {a : List Char} (r : List Char)
    (h : ∀ x ∈ a, x ≠ ch) : firstMatch [ch] (a ++ (ch :: r)) = some a.length := by
  induction a with
  | nil => simpa using firstMatch_here [ch] r
  | cons x t ih =>
    have hx : ch ≠ x := fun hc => (h x (by simp)) hc.symm
    rw [List.cons_append, firstMatch_cons_not (not_prefixOf_head [] _ hx)]
    rw [ih (fun y hy => h y (by simp [hy]))]
    simp

theorem findFrom_none_of_no_occ {hay p : List Char} {s : Nat}
    (h : ∀ n, s ≤ n → ¬ p.isPrefixOf (hay.drop n) = true) :
    findFrom hay p s = none := by
  unfold findFrom
  rw [Option.map_eq_none', firstMatch_none_iff]
  intro i
  rw [List.drop_drop]
  exact h (s + i) (Nat.le_add_right s i)

theorem no_occ_of_findFrom_none {hay p : List Char} {s : Nat}
    (h : findFrom hay p s = none) :
    ∀ n, s ≤ n → ¬ p.isPrefixOf (hay.drop n) = true := by
  intro n hn
  unfold findFrom at h
  rw [Option.map_eq_none', firstMatch_none_iff] at h
  have h2 := h (n - s)
  rw [List.drop_drop] at h2
  rwa [Nat.add_sub_cancel' hn] at h2

theorem findFrom_of_firstMatch {hay p : List Char} {s i : Nat}
    (h : firstMatch p (hay.drop s) = some i) : findFrom hay p s = some (i + s) := by
  rw [findFrom, h]; rfl

theorem drop_shift (j : List Char) (p k : Nat) (x : List Char)
    (hd : j.drop p = x) : j.drop (p + k) = x.drop k := by
  rw [← List.drop_drop, hd]

theorem drop_of_shape (j : List Char) (p : Nat) (A x : List Char) (k : Nat)
    (hd : j.drop p = A ++ x) (hk : A.length = k) : j.drop (p + k) = x := by
  subst hk
  rw [drop_shift j p A.length _ hd, List.drop_left]

/-! ## Evaluation of the parse steps on payloads of the standard shape -/

theorem firstMatch_key_after_comma {k : List Char} (kh : Char) (kt x : List Char)
    (hk : k = kh :: kt) (hne : kh ≠ ',') :
    firstMatch k (',' :: (k ++ x)) = some 1 := by
  subst hk
  rw [firstMatch_cons_not (not_prefixOf_head _ _ hne), firstMatch_here]
  rfl

theorem firstMatch_entryKey (x : List Char) :
    firstMatch entryKey (qc :: ',' :: (entryKey ++ x)) = some 2 := by
  have he : entryKey = qc :: 'e' :: (("ntry_price\x22:").toList) := by decide
  rw [he]
  rw [firstMatch_cons_not (not_prefixOf_two _ _ (by decide))]
  rw [firstMatch_cons_not (not_prefixOf_head _ _ (by decide))]
  rw [firstMatch_here]
  rfl

theorem symStep_eval {j : List Char} {p0 : Nat} {sym rest : List Char}
    (hd : j.drop p0 = lbrace :: (symbolKey ++ (qc :: (sym ++ (qc :: rest)))))
    (hs : sym ≠ []) (hq : ∀ c ∈ sym, c ≠ qc) :
    symStep j p0 = some (sym, p0 + 11 + sym.length) ∧
    j.drop (p0 + 11 + sym.length) = qc :: rest := by
  have hf1 : findFrom j symbolKey p0 = some (p0 + 1) := by
    have hfm : firstMatch symbolKey (j.drop p0) = some 1 := by
      rw [hd]
      have hsk : symbolKey = qc :: (("symbol\x22:").toList) := by decide
      rw [hsk]
      rw [firstMatch_cons_not (not_prefixOf_head _ _ (by decide))]
      rw [firstMatch_here]
      rfl
    have h := findFrom_of_firstMatch hfm
    rwa [Nat.add_comm 1 p0] at h
  have hd1 : j.drop p0 = (lbrace :: symbolKey) ++ (qc :: (sym ++ (qc :: rest))) := by
    rw [hd]; rfl
  have hd10 : j.drop (p0 + 10) = qc :: (sym ++ (qc :: rest)) :=
    drop_of_shape j p0 _ _ 10 hd1 (by decide)
  have hd11 : j.drop (p0 + 11) = sym ++ (qc :: rest) := by
    have hd10x : j.drop (p0 + 10) = [qc] ++ (sym ++ (qc :: rest)) := hd10
    have h := drop_of_shape j (p0 + 10) [qc] _ 1 hd10x (by decide)
    rwa [show p0 + 10 + 1 = p0 + 11 by omega] at h
  have hf2 : findFrom j [qc] (p0 + 1 + 9) = some (p0 + 10) := by
    rw [show p0 + 1 + 9 = p0 + 10 by omega]
    have hfm : firstMatch [qc] (j.drop (p0 + 10)) = some 0 := by
      rw [hd10]
      exact firstMatch_here [qc] _
    have h := findFrom_of_firstMatch hfm
    rwa [Nat.zero_add] at h
  have hf3 : findFrom j [qc] (p0 + 10 + 1) = some (p0 + 11 + sym.length) := by
    rw [show p0 + 10 + 1 = p0 + 11 by omega]
    have hfm : firstMatch [qc] (j.drop (p0 + 11)) = some sym.length := by
      rw [hd11]
      exact firstMatch_char _ hq
    have h := findFrom_of_firstMatch hfm
    rwa [show sym.length + (p0 + 11) = p0 + 11 + sym.length by omega] at h
  have hpos : 0 < sym.length := List.length_pos.mpr hs
  constructor
  · simp only [symStep, hf1, hf2, hf3]
    rw [if_neg (by omega)]
    rw [show p0 + 10 + 1 = p0 + 11 by omega,
        show p0 + 11 + sym.length - (p0 + 11) = sym.length by omega]
    unfold substr
    rw [hd11, List.take_left]
  · exact drop_of_shape j (p0 + 11) sym _ sym.length hd11 rfl

theorem numStep_eval {key keyPre : List Char} {j : List Char} {prev : Nat}
    (junk txt rest : List Char)
    (hkey : key = keyPre ++ [':'])
    (hpre : ∀ c ∈ keyPre, c ≠ ':')
    (hd : j.drop prev = junk ++ (key ++ (txt ++ (',' :: rest))))
    (hfm : firstMatch key (j.drop prev) = some junk.length)
    (htxt : ∀ c ∈ txt, c ≠ ',')
    (hne : txt ≠ []) :
    numStep key j prev =
      some (stringToDouble (trimBoth txt),
            prev + junk.length + key.length + txt.length) ∧
    j.drop (prev + junk.length + key.length + txt.length) = ',' :: rest := by
  have hf1 : findFrom j key prev = some (prev + junk.length) := by
    have h := findFrom_of_firstMatch hfm
    rwa [Nat.add_comm] at h
  have hdpos : j.drop (prev + junk.length) = key ++ (txt ++ (',' :: rest)) :=
    drop_of_shape j prev junk _ junk.length hd rfl
  have hdpos' : j.drop (prev + junk.length) = keyPre ++ (':' :: (txt ++ (',' :: rest))) := by
    rw [hdpos, hkey, List.append_assoc]
    rfl
  have hf2 : findFrom j [':'] (prev + junk.length) =
      some (prev + junk.length + keyPre.length) := by
    have hfm2 : firstMatch [':'] (j.drop (prev + junk.length)) = some keyPre.length := by
      rw [hdpos']
      exact firstMatch_char _ hpre
    have h := findFrom_of_firstMatch hfm2
    rwa [show keyPre.length + (prev + junk.length) =
        prev + junk.length + keyPre.length by omega] at h
  have hK : key.length = keyPre.length + 1 := by rw [hkey]; simp
  have hds : j.drop (prev + junk.length + key.length) = txt ++ (',' :: rest) :=
    drop_of_shape j (prev + junk.length) key _ key.length hdpos rfl
  have hf3 : findFrom j [','] (prev + junk.length + keyPre.length + 1) =
      some (prev + junk.length + key.length + txt.length) := by
    rw [show prev + junk.length + keyPre.length + 1 =
        prev + junk.length + key.length by omega]
    have hfm3 : firstMatch [','] (j.drop (prev + junk.length + key.length)) =
        some txt.length := by
      rw [hds]
      exact firstMatch_char _ htxt
    have h := findFrom_of_firstMatch hfm3
    rwa [show txt.length + (prev + junk.length + key.length) =
        prev + junk.length + key.length + txt.length by omega] at h
  have hpos : 0 < txt.length := List.length_pos.mpr hne
  constructor
  · simp only [numStep, hf1, hf2, hf3]
    rw [if_neg (by omega)]
    rw [show prev + junk.length + keyPre.length + 1 =
        prev + junk.length + key.length by omega]
    rw [show prev + junk.length + key.length + txt.length -
        (prev + junk.length + key.length) = txt.length by omega]
    unfold substr
    rw [hds, List.take_left]
  · exact drop_of_shape j (prev + junk.length + key.length) txt _ txt.length hds rfl

theorem buyStep_eval {j : List Char} {prev : Nat} {tail : List Char}
    (hd : j.drop prev = ',' :: (isBuyKey ++ tail)) :
    buyStep j prev = some (hasTok trueTok (trimBoth (tail.take 5))) := by
  have hf1 : findFrom j isBuyKey prev = some (prev + 1) := by
    have hfm : firstMatch isBuyKey (j.drop prev) = some 1 := by
      rw [hd]
      exact firstMatch_key_after_comma qc (("is_buy\x22:").toList) tail (by decide) (by decide)
    have h := findFrom_of_firstMatch hfm
    rwa [Nat.add_comm] at h
  have hd1 : j.drop (prev + 1) = isBuyKey ++ tail := by
    have hdx : j.drop prev = [','] ++ (isBuyKey ++ tail) := hd
    exact drop_of_shape j prev [','] _ 1 hdx (by decide)
  have hf2 : findFrom j [':'] (prev + 1) = some (prev + 1 + 8) := by
    have hfm : firstMatch [':'] (j.drop (prev + 1)) = some 8 := by
      rw [hd1, show isBuyKey = (("\x22is_buy\x22").toList) ++ [':'] from by decide,
          List.append_assoc]
      exact firstMatch_char tail (by decide)
    have h := findFrom_of_firstMatch hfm
    rwa [show 8 + (prev + 1) = prev + 1 + 8 by omega] at h
  have hd9 : j.drop (prev + 1 + 9) = tail :=
    drop_of_shape j (prev + 1) isBuyKey _ 9 hd1 (by decide)
  simp only [buyStep, hf1, hf2]
  rw [show prev + 1 + 8 + 1 = prev + 1 + 9 by omega]
  unfold substr
  rw [hd9]

/-- A payload template: the raw text of each of the six fields, to be
assembled in the declared order. -/
structure RawInstr where
  symbol : List Char
  entryTxt : List Char
  slTxt : List Char
  tpTxt : List Char
  lotTxt : List Char
  buyTxt : List Char

/-- Payload suffix from the direction key on. -/
def tail5 (r : RawInstr) : List Char := isBuyKey ++ r.buyTxt ++ [rbrace]

/-- Payload suffix from the position size key on. -/
def tail4 (r : RawInstr) : List Char := lotKey ++ r.lotTxt ++ ',' :: tail5 r

/-- Payload suffix from the take-profit key on. -/
def tail3 (r : RawInstr) : List Char := tpKey ++ r.tpTxt ++ ',' :: tail4 r

/-- Payload suffix from the stop-loss key on. -/
def tail2 (r : RawInstr) : List Char := slKey ++ r.slTxt ++ ',' :: tail3 r

/-- Payload suffix from the entry price key on. -/
def tail1 (r : RawInstr) : List Char := entryKey ++ r.entryTxt ++ ',' :: tail2 r

/-- Assemble a payload with the six recognized fields in declared order. -/
def buildRaw (r : RawInstr) : List Char :=
  lbrace :: symbolKey ++ qc :: r.symbol ++ qc :: ',' :: tail1 r

/-- Evaluation of `ParseSingleTrade` on any payload with the six fields in
declared order: parsing succeeds, the symbol text and each numeric field
text are isolated exactly, and the direction is decided on the trimmed
five-character window following the direction key's colon. -/
theorem parse_buildRaw (r : RawInstr)
    (hs : r.symbol ≠ []) (hq : ∀ c ∈ r.symbol, c ≠ qc)
    (he : r.entryTxt ≠ []) (hec : ∀ c ∈ r.entryTxt, c ≠ ',')
    (hl : r.slTxt ≠ []) (hlc : ∀ c ∈ r.slTxt, c ≠ ',')
    (ht : r.tpTxt ≠ []) (htc : ∀ c ∈ r.tpTxt, c ≠ ',')
    (ho : r.lotTxt ≠ []) (hoc : ∀ c ∈ r.lotTxt, c ≠ ',') :
    ParseSingleTrade (buildRaw r) 0 =
      some ⟨r.symbol,
            stringToDouble (trimBoth r.entryTxt),
            stringToDouble (trimBoth r.slTxt),
            stringToDouble (trimBoth r.tpTxt),
            stringToDouble (trimBoth r.lotTxt),
            hasTok trueTok (trimBoth ((r.buyTxt ++ [rbrace]).take 5))⟩ := by
  have hd0 : (buildRaw r).drop 0 =
      lbrace :: (symbolKey ++ (qc :: (r.symbol ++ (qc :: (',' :: tail1 r))))) := by
    rw [List.drop_zero]
    rfl
  obtain ⟨hsym, hr1⟩ := symStep_eval hd0 hs hq
  obtain ⟨hentry, hr2⟩ := numStep_eval [qc, ','] r.entryTxt (tail2 r)
    (show entryKey = (("\x22entry_price\x22").toList) ++ [':'] from by decide)
    (show ∀ c ∈ (("\x22entry_price\x22").toList), c ≠ ':' from by decide)
    hr1
    (by rw [hr1]; exact firstMatch_entryKey _)
    hec he
  obtain ⟨hsl2, hr3⟩ := numStep_eval [','] r.slTxt (tail3 r)
    (show slKey = (("\x22sl_price\x22").toList) ++ [':'] from by decide)
    (show ∀ c ∈ (("\x22sl_price\x22").toList), c ≠ ':' from by decide)
    hr2
    (by
      rw [hr2]
      exact firstMatch_key_after_comma qc (("sl_price\x22:").toList) _ (by decide) (by decide))
    hlc hl
  obtain ⟨htp2, hr4⟩ := numStep_eval [','] r.tpTxt (tail4 r)
    (show tpKey = (("\x22tp_price\x22").toList) ++ [':'] from by decide)
    (show ∀ c ∈ (("\x22tp_price\x22").toList), c ≠ ':' from by decide)
    hr3
    (by
      rw [hr3]
      exact firstMatch_key_after_comma qc (("tp_price\x22:").toList) _ (by decide) (by decide))
    htc ht
  obtain ⟨hlot2, hr5⟩ := numStep_eval [','] r.lotTxt (tail5 r)
    (show lotKey = (("\x22lot_size\x22").toList) ++ [':'] from by decide)
    (show ∀ c ∈ (("\x22lot_size\x22").toList), c ≠ ':' from by decide)
    hr4
    (by
      rw [hr4]
      exact firstMatch_key_after_comma qc (("lot_size\x22:").toList) _ (by decide) (by decide))
    hoc ho
  have hbuy := buyStep_eval
    (show (buildRaw r).drop (0 + 11 + r.symbol.length + ([qc, ',']).length +
      entryKey.length + r.entryTxt.length + ([',']).length + slKey.length +
      r.slTxt.length + ([',']).length + tpKey.length + r.tpTxt.length +
      ([',']).length + lotKey.length + r.lotTxt.length) =
      ',' :: (isBuyKey ++ (r.buyTxt ++ [rbrace])) from hr5)
  simp at hentry hsl2 htp2 hlot2 hbuy
  simp [ParseSingleTrade, hsym, hentry, hsl2, htp2, hlot2, hbuy]

/-! ## Decimal literals and their rendering -/

/-- A decimal literal: sign, integer digit run, fractional digit run.  This
is the textual form in which a known instruction's numeric field is placed
into a payload. -/
structure DecimalLit where
  neg : Bool
  ip : List Char
  fp : List Char

/-- Render a decimal literal as payload text. -/
def renderLit (d : DecimalLit) : List Char :=
  (if d.neg then ['-'] else []) ++ d.ip ++ (if d.fp.isEmpty then [] else '.' :: d.fp)

/-- The exact rational value denoted by a decimal literal. -/
def litValue (d : DecimalLit) : ℚ :=
  (if d.neg then -1 else 1) *
    ((natOfDigits d.ip : ℚ) + (natOfDigits d.fp : ℚ) / (10 : ℚ) ^ d.fp.length)

theorem isDigit_ne {c : Char} (h : c.isDigit = true) :
    c ≠ '-' ∧ c ≠ '+' ∧ c ≠ '.' ∧ c ≠ ',' ∧ c ≠ ':' ∧ c ≠ qc ∧ c ≠ rbrace ∧
    c ≠ lbrace ∧ isWsp c = false := by
  refine ⟨?_, ?_, ?_, ?_, ?_, ?_, ?_, ?_, ?_⟩
  · rintro rfl; exact absurd h (by decide)
  · rintro rfl; exact absurd h (by decide)
  · rintro rfl; exact absurd h (by decide)
  · rintro rfl; exact absurd h (by decide)
  · rintro rfl; exact absurd h (by decide)
  · rintro rfl; exact absurd h (by decide)
  · rintro rfl; exact absurd h (by decide)
  · rintro rfl; exact absurd h (by decide)
  · cases hw : isWsp c with
    | false => rfl
    | true =>
      exfalso
      simp only [isWsp, Bool.or_eq_true, decide_eq_true_eq] at hw
      rcases hw with ((h1 | h1) | h1) | h1 <;> (subst h1; exact absurd h (by decide))

theorem takeWhile_all {p : Char → Bool} {a : List Char} (h : ∀ c ∈ a, p c = true) :
    a.takeWhile p = a ∧ a.dropWhile p = [] :=
  ⟨List.takeWhile_eq_self_iff.mpr h, List.dropWhile_eq_nil_iff.mpr h⟩

theorem span_app {p : Char → Bool} {a : List Char} (h : ∀ c ∈ a, p c = true)
    {d : Char} (hd : p d = false) (t : List Char) :
    (a ++ d :: t).takeWhile p = a ∧ (a ++ d :: t).dropWhile p = d :: t := by
  induction a with
  | nil =>
    constructor
    · rw [List.nil_append, List.takeWhile_cons_of_neg (by simp [hd])]
    · rw [List.nil_append, List.dropWhile_cons_of_neg (by simp [hd])]
  | cons x xs ih =>
    have hx : p x = true := h x (by simp)
    obtain ⟨ih1, ih2⟩ := ih (fun c hc => h c (by simp [hc]))
    constructor
    · rw [List.cons_append, List.takeWhile_cons_of_pos hx, ih1]
    · rw [List.cons_append, List.dropWhile_cons_of_pos hx, ih2]

theorem magnitude_render {ip fp : List Char} (hip : ∀ c ∈ ip, c.isDigit = true)
    (hfp : ∀ c ∈ fp, c.isDigit = true) :
    magnitude (ip ++ (if fp.isEmpty then [] else '.' :: fp)) =
      (natOfDigits ip : ℚ) + (natOfDigits fp : ℚ) / (10 : ℚ) ^ fp.length := by
  cases hf : fp.isEmpty
  · rw [if_neg (by simp [hf])]
    obtain ⟨h1, h2⟩ := span_app hip (show Char.isDigit '.' = false from by decide) fp
    rw [magnitude]
    simp only [h1, h2]
    simp [(takeWhile_all hfp).1]
  · rw [if_pos (by simp [hf])]
    rw [List.isEmpty_iff] at hf
    subst hf
    rw [List.append_nil, magnitude]
    simp [(takeWhile_all hip).1, (takeWhile_all hip).2]

theorem stringToDouble_renderLit (d : DecimalLit) (hne : d.ip ≠ [])
    (hip : ∀ c ∈ d.ip, c.isDigit = true) (hfp : ∀ c ∈ d.fp, c.isDigit = true) :
    stringToDouble (renderLit d) = litValue d := by
  obtain ⟨i0, it, hip0⟩ : ∃ i0 it, d.ip = i0 :: it := by
    cases h : d.ip with
    | nil => exact absurd h hne
    | cons a b => exact ⟨a, b, rfl⟩
  have hd0 : i0.isDigit = true := hip i0 (by rw [hip0]; simp)
  obtain ⟨hm, hp, _, _, _, _, _, _, _⟩ := isDigit_ne hd0
  cases hn : d.neg
  · have hr : renderLit d = d.ip ++ (if d.fp.isEmpty then [] else '.' :: d.fp) := by
      rw [renderLit, hn, if_neg (by simp), List.nil_append]
    rw [hr, hip0, List.cons_append, stringToDouble]
    rw [if_neg hm, if_neg hp, ← List.cons_append, ← hip0]
    rw [magnitude_render hip hfp, litValue, hn, if_neg (by simp), one_mul]
  · have hr : renderLit d = '-' :: (d.ip ++ (if d.fp.isEmpty then [] else '.' :: d.fp)) := by
      rw [renderLit, hn, if_pos rfl]
      rfl
    rw [hr, stringToDouble, if_pos rfl]
    rw [magnitude_render hip hfp, litValue, hn, if_pos rfl, neg_one_mul]

theorem renderLit_mem {d : DecimalLit} (hip : ∀ c ∈ d.ip, c.isDigit = true)
    (hfp : ∀ c ∈ d.fp, c.isDigit = true) :
    ∀ c ∈ renderLit d, c = '-' ∨ c = '.' ∨ c.isDigit = true := by
  intro c hc
  rw [renderLit] at hc
  simp only [List.mem_append] at hc
  rcases hc with (hc | hc) | hc
  · cases hn : d.neg
    · rw [hn] at hc; simp at hc
    · rw [hn] at hc; simp at hc; exact Or.inl hc
  · exact Or.inr (Or.inr (hip c hc))
  · cases hf : d.fp.isEmpty
    · rw [hf] at hc
      simp at hc
      rcases hc with hc | hc
      · exact Or.inr (Or.inl hc)
      · exact Or.inr (Or.inr (hfp c hc))
    · rw [hf] at hc; simp at hc

theorem renderLit_no_comma {d : DecimalLit} (hip : ∀ c ∈ d.ip, c.isDigit = true)
    (hfp : ∀ c ∈ d.fp, c.isDigit = true) : ∀ c ∈ renderLit d, c ≠ ',' := by
  intro c hc
  rcases renderLit_mem hip hfp c hc with h | h | h
  · subst h; decide
  · subst h; decide
  · exact (isDigit_ne h).2.2.2.1

theorem renderLit_no_wsp {d : DecimalLit} (hip : ∀ c ∈ d.ip, c.isDigit = true)
    (hfp : ∀ c ∈ d.fp, c.isDigit = true) : ∀ c ∈ renderLit d, isWsp c = false := by
  intro c hc
  rcases renderLit_mem hip hfp c hc with h | h | h
  · subst h; decide
  · subst h; decide
  · exact (isDigit_ne h).2.2.2.2.2.2.2.2

theorem renderLit_ne_nil {d : DecimalLit} (hne : d.ip ≠ []) : renderLit d ≠ [] := by
  rw [renderLit]
  intro h
  rw [List.append_eq_nil, List.append_eq_nil] at h
  exact hne h.1.2

theorem trimBoth_eq_self {l : List Char} (h : ∀ c ∈ l, isWsp c = false) :
    trimBoth l = l := by
  have h1 : trimLeftL l = l := by
    rw [trimLeftL, List.dropWhile_eq_self_iff]
    intro hl
    rw [h _ (List.get_mem l 0 hl)]
    simp
  have h2 : trimRightL l = l := by
    rw [trimRightL, List.dropWhile_eq_self_iff.mpr, List.reverse_reverse]
    intro hl
    rw [h _ (List.mem_reverse.mp (List.get_mem l.reverse 0 hl))]
    simp
  rw [trimBoth, h1, h2]

/-- A known trade instruction, as used for the round-trip property: a
symbol text, four numeric fields given as decimal literals, and a
direction. -/
structure Instr where
  symbol : List Char
  entry : DecimalLit
  sl : DecimalLit
  tp : DecimalLit
  lot : DecimalLit
  isBuy : Bool

/-- Build the payload for a known instruction: the six fields in declared
order, numeric fields rendered as decimal text and the direction flag as
the lowercase token `true` or `false`. -/
def buildPayload (i : Instr) : List Char :=
  buildRaw ⟨i.symbol, renderLit i.entry, renderLit i.sl, renderLit i.tp, renderLit i.lot,
    if i.isBuy then ("true").toList else ("false").toList⟩

/-- **C6**: for every well-formed payload constructed from a known
instruction with all six fields present in the declared order, parsing
succeeds and recovers each field's exact value: the round-trip
build-payload-then-parse yields a signal equal field-for-field to the
original instruction. -/
theorem claim6_roundtrip (i : Instr)
    (hs : i.symbol ≠ []) (hq : ∀ c ∈ i.symbol, c ≠ qc)
    (he1 : i.entry.ip ≠ []) (he2 : ∀ c ∈ i.entry.ip, c.isDigit = true)
    (he3 : ∀ c ∈ i.entry.fp, c.isDigit = true)
    (hl1 : i.sl.ip ≠ []) (hl2 : ∀ c ∈ i.sl.ip, c.isDigit = true)
    (hl3 : ∀ c ∈ i.sl.fp, c.isDigit = true)
    (ht1 : i.tp.ip ≠ []) (ht2 : ∀ c ∈ i.tp.ip, c.isDigit = true)
    (ht3 : ∀ c ∈ i.tp.fp, c.isDigit = true)
    (ho1 : i.lot.ip ≠ []) (ho2 : ∀ c ∈ i.lot.ip, c.isDigit = true)
    (ho3 : ∀ c ∈ i.lot.fp, c.isDigit = true) :
    ParseSingleTrade (buildPayload i) 0 =
      some ⟨i.symbol, litValue i.entry, litValue i.sl, litValue i.tp,
            litValue i.lot, i.isBuy⟩ := by
  rw [buildPayload]
  rw [parse_buildRaw _ hs hq (renderLit_ne_nil he1) (renderLit_no_comma he2 he3)
      (renderLit_ne_nil hl1) (renderLit_no_comma hl2 hl3)
      (renderLit_ne_nil ht1) (renderLit_no_comma ht2 ht3)
      (renderLit_ne_nil ho1) (renderLit_no_comma ho2 ho3)]
  simp [trimBoth_eq_self (renderLit_no_wsp he2 he3),
        trimBoth_eq_self (renderLit_no_wsp hl2 hl3),
        trimBoth_eq_self (renderLit_no_wsp ht2 ht3),
        trimBoth_eq_self (renderLit_no_wsp ho2 ho3),
        stringToDouble_renderLit i.entry he1 he2 he3,
        stringToDouble_renderLit i.sl hl1 hl2 hl3,
        stringToDouble_renderLit i.tp ht1 ht2 ht3,
        stringToDouble_renderLit i.lot ho1 ho2 ho3]
  cases hb : i.isBuy
  · simp [hb]
    decide
  · simp [hb]
    decide

/-! ## Parse failure on missing and out-of-order fields -/

theorem symStep_none {j : List Char} {p : Nat}
    (h : findFrom j symbolKey p = none) : symStep j p = none := by
  unfold symStep
  rw [h]

theorem numStep_none (key : List Char) {j : List Char} {prev : Nat}
    (h : findFrom j key prev = none) : numStep key j prev = none := by
  unfold numStep
  rw [h]

theorem buyStep_none {j : List Char} {prev : Nat}
    (h : findFrom j isBuyKey prev = none) : buyStep j prev = none := by
  unfold buyStep
  rw [h]

/-- **C5**: for every payload from which any one of the six required fields
cannot be located (its key text occurs nowhere in the payload), the parse
fails — `ParseSingleTrade` returns `false` from every start position — and
the execution capability receives zero calls in that cycle, for every venue
and transport status. -/
theorem claim5_missing_field (body k : List Char)
    (hk : k ∈ [symbolKey, entryKey, slKey, tpKey, lotKey, isBuyKey])
    (habs : ∀ n, ¬ k.isPrefixOf (body.drop n) = true) :
    (∀ startPos, ParseSingleTrade body startPos = none) ∧
    (∀ (v : Venue) (status : Int), submissions (onTimer v status body) = []) := by
  have hfind : ∀ s, findFrom body k s = none := fun s =>
    findFrom_none_of_no_occ (fun n _ => habs n)
  have hparse : ∀ startPos, ParseSingleTrade body startPos = none := by
    intro p
    simp only [List.mem_cons, List.not_mem_nil, or_false] at hk
    rcases hk with rfl | rfl | rfl | rfl | rfl | rfl
    · unfold ParseSingleTrade
      rw [symStep_none (hfind p)]
      rfl
    · unfold ParseSingleTrade
      rcases hs : symStep body p with _ | a
      · rfl
      · simp [numStep_none _ (hfind a.2)]
    · unfold ParseSingleTrade
      rcases hs : symStep body p with _ | a
      · rfl
      · rcases he : numStep entryKey body a.2 with _ | b
        · simp [he]
        · simp [he, numStep_none _ (hfind b.2)]
    · unfold ParseSingleTrade
      rcases hs : symStep body p with _ | a
      · rfl
      · rcases he : numStep entryKey body a.2 with _ | b
        · simp [he]
        · rcases hsl : numStep slKey body b.2 with _ | c
          · simp [he, hsl]
          · simp [he, hsl, numStep_none _ (hfind c.2)]
    · unfold ParseSingleTrade
      rcases hs : symStep body p with _ | a
      · rfl
      · rcases he : numStep entryKey body a.2 with _ | b
        · simp [he]
        · rcases hsl : numStep slKey body b.2 with _ | c
          · simp [he, hsl]
          · rcases htp : numStep tpKey body c.2 with _ | d
            · simp [he, hsl, htp]
            · simp [he, hsl, htp, numStep_none _ (hfind d.2)]
    · unfold ParseSingleTrade
      rcases hs : symStep body p with _ | a
      · rfl
      · rcases he : numStep entryKey body a.2 with _ | b
        · simp [he]
        · rcases hsl : numStep slKey body b.2 with _ | c
          · simp [he, hsl]
          · rcases htp : numStep tpKey body c.2 with _ | d
            · simp [he, hsl, htp]
            · rcases hlo : numStep lotKey body d.2 with _ | f
              · simp [he, hsl, htp, hlo]
              · simp [he, hsl, htp, hlo, buyStep_none (hfind f.2)]
  refine ⟨hparse, ?_⟩
  intro v status
  rw [onTimer]
  by_cases hst : status = 200
  · rw [if_neg (by simp [hst])]
    rcases hb : findFrom body [lbrace] 0 with _ | pos
    · rfl
    · simp [hparse pos, submissions]
  · rw [if_pos hst]
    rfl

/-- **C7**: parsing is order-dependent.  Each field's key is searched only
forward from the end of the previous field's match: if the chain has
successfully parsed fields `0..i` ending at position `e`, and the next
field's key occurs only before `e` (no occurrence at any position `≥ e`),
the parse fails and no signal is produced. -/
theorem claim7_order_dependent (j : List Char) (p i e : Nat) (hi : i ≤ 4)
    (hchain : chainEnd j p i = some e)
    (habs : ∀ n, e ≤ n → ¬ (nextKey i).isPrefixOf (j.drop n) = true) :
    ParseSingleTrade j p = none := by
  have hfind : findFrom j (nextKey i) e = none := findFrom_none_of_no_occ habs
  interval_cases i
  · simp only [nextKey] at hfind
    rcases hs : symStep j p with _ | a
    · simp [chainEnd, chainStep, hs] at hchain
    · simp [chainEnd, chainStep, hs] at hchain
      unfold ParseSingleTrade
      rw [hs]
      simp [hchain, numStep_none _ hfind]
  · simp only [nextKey] at hfind
    rcases hs : symStep j p with _ | a
    · simp [chainEnd, chainStep, hs] at hchain
    · rcases he : numStep entryKey j a.2 with _ | b
      · simp [chainEnd, chainStep, hs, he] at hchain
      · simp [chainEnd, chainStep, hs, he] at hchain
        unfold ParseSingleTrade
        rw [hs]
        simp [he, hchain, numStep_none _ hfind]
  · simp only [nextKey] at hfind
    rcases hs : symStep j p with _ | a
    · simp [chainEnd, chainStep, hs] at hchain
    · rcases he : numStep entryKey j a.2 with _ | b
      · simp [chainEnd, chainStep, hs, he] at hchain
      · rcases hsl : numStep slKey j b.2 with _ | c
        · simp [chainEnd, chainStep, hs, he, hsl] at hchain
        · simp [chainEnd, chainStep, hs, he, hsl] at hchain
          unfold ParseSingleTrade
          rw [hs]
          simp [he, hsl, hchain, numStep_none _ hfind]
  · simp only [nextKey] at hfind
    rcases hs : symStep j p with _ | a
    · simp [chainEnd, chainStep, hs] at hchain
    · rcases he : numStep entryKey j a.2 with _ | b
      · simp [chainEnd, chainStep, hs, he] at hchain
      · rcases hsl : numStep slKey j b.2 with _ | c
        · simp [chainEnd, chainStep, hs, he, hsl] at hchain
        · rcases htp : numStep tpKey j c.2 with _ | d
          · simp [chainEnd, chainStep, hs, he, hsl, htp] at hchain
          · simp [chainEnd, chainStep, hs, he, hsl, htp] at hchain
            unfold ParseSingleTrade
            rw [hs]
            simp [he, hsl, htp, hchain, numStep_none _ hfind]
  · simp only [nextKey] at hfind
    rcases hs : symStep j p with _ | a
    · simp [chainEnd, chainStep, hs] at hchain
    · rcases he : numStep entryKey j a.2 with _ | b
      · simp [chainEnd, chainStep, hs, he] at hchain
      · rcases hsl : numStep slKey j b.2 with _ | c
        · simp [chainEnd, chainStep, hs, he, hsl] at hchain
        · rcases htp : numStep tpKey j c.2 with _ | d
          · simp [chainEnd, chainStep, hs, he, hsl, htp] at hchain
          · rcases hlo : numStep lotKey j d.2 with _ | f
            · simp [chainEnd, chainStep, hs, he, hsl, htp, hlo] at hchain
            · simp [chainEnd, chainStep, hs, he, hsl, htp, hlo] at hchain
              unfold ParseSingleTrade
              rw [hs]
              simp [he, hsl, htp, hlo, hchain, buyStep_none hfind]

/-! ## Pipeline behaviour of OnTimer -/

theorem onTimer_submitted (v : Venue) (status : Int) (body : List Char)
    (pos : Nat) (sig : TradeSignal)
    (hst : status = 200)
    (hb : findFrom body [lbrace] 0 = some pos)
    (hp : ParseSingleTrade body pos = some sig) :
    onTimer v status body = CycleResult.submitted
      ⟨sig.isBuy, sig.lot, sig.symbol,
       normalizeDouble sig.entry (symbolDigits v sig.symbol),
       normalizeDouble sig.sl (symbolDigits v sig.symbol),
       normalizeDouble sig.tp (symbolDigits v sig.symbol), tradeComment⟩ := by
  subst hst
  rw [onTimer, if_neg (by simp)]
  simp [hb, hp]

/-- **C8**: for every cycle in which the transport request returns a
non-success status, the cycle aborts immediately at the transport gate —
the result is `transportFail`, reached before the body is ever examined,
so no parse is attempted and the execution capability call count is zero. -/
theorem claim8_transport_gate (v : Venue) (status : Int) (body : List Char)
    (h : status ≠ 200) :
    onTimer v status body = CycleResult.transportFail ∧
    submissions (onTimer v status body) = [] := by
  have h1 : onTimer v status body = CycleResult.transportFail := by
    rw [onTimer, if_pos h]
  exact ⟨h1, by rw [h1]; rfl⟩

/-- **C9**: for every parsed signal whose instrument's precision lookup
succeeds with digit count `d`, the submitted order carries exactly the
three price fields rounded to `d` digits while the position size, the
direction and the instrument identifier pass through completely
unchanged (no rounding or bounds check on size). -/
theorem claim9_normalizer_frame (v : Venue) (body : List Char) (pos : Nat)
    (sig : TradeSignal) (d : Nat)
    (hb : findFrom body [lbrace] 0 = some pos)
    (hp : ParseSingleTrade body pos = some sig)
    (hd : v.precision sig.symbol = some d) :
    onTimer v 200 body = CycleResult.submitted
      ⟨sig.isBuy, sig.lot, sig.symbol,
       normalizeDouble sig.entry d, normalizeDouble sig.sl d,
       normalizeDouble sig.tp d, tradeComment⟩ := by
  have h := onTimer_submitted v 200 body pos sig rfl hb hp
  rwa [show symbolDigits v sig.symbol = d from by rw [symbolDigits, hd]; rfl] at h

/-- **C3 amended**: when the precision lookup fails (unknown instrument),
the cycle does *not* abort: the digit count defaults to `0` (the MQL5
return value of a failed `SymbolInfoInteger` call), prices are normalized
to zero decimals, and exactly one order submission is still attempted. -/
theorem claim3_amended (v : Venue) (body : List Char) (pos : Nat)
    (sig : TradeSignal)
    (hb : findFrom body [lbrace] 0 = some pos)
    (hp : ParseSingleTrade body pos = some sig)
    (hd : v.precision sig.symbol = none) :
    onTimer v 200 body = CycleResult.submitted
      ⟨sig.isBuy, sig.lot, sig.symbol,
       normalizeDouble sig.entry 0, normalizeDouble sig.sl 0,
       normalizeDouble sig.tp 0, tradeComment⟩ ∧
    (submissions (onTimer v 200 body)).length = 1 := by
  have h := onTimer_submitted v 200 body pos sig rfl hb hp
  rw [show symbolDigits v sig.symbol = 0 from by rw [symbolDigits, hd]; rfl] at h
  exact ⟨h, by rw [h]; rfl⟩

/-- **C4 amended**: an order submission is attempted for every successfully
parsed signal regardless of its position size — in particular also when the
size is zero or negative — with the size passed to the venue unchanged;
the code performs no strict-positivity check. -/
theorem claim4_amended (v : Venue) (body : List Char) (pos : Nat)
    (sig : TradeSignal)
    (hb : findFrom body [lbrace] 0 = some pos)
    (hp : ParseSingleTrade body pos = some sig)
    (hlot : sig.lot ≤ 0) :
    ∃ o : Order, onTimer v 200 body = CycleResult.submitted o ∧ o.lot = sig.lot ∧
      (submissions (onTimer v 200 body)).length = 1 := by
  refine ⟨_, onTimer_submitted v 200 body pos sig rfl hb hp, rfl, ?_⟩
  rw [onTimer_submitted v 200 body pos sig rfl hb hp]
  rfl

/-! ## The direction-decision window -/

theorem occurs_in_of_infix {p u w : List Char} (hu : u <:+: w) {i : Nat}
    (h : p.isPrefixOf (u.drop i) = true) :
    ∃ m, p.isPrefixOf (w.drop m) = true := by
  obtain ⟨s, t, rfl⟩ := hu
  refine ⟨s.length + i, ?_⟩
  rw [ List.isPrefixOf_iff_prefix] at h ⊢
  rw [List.append_assoc, List.drop_append, List.drop_append_eq_append_drop]
  exact h.trans (List.prefix_append _ _)

theorem trimBoth_within (l : List Char) : trimBoth l <:+: l := by
  have h1 : trimLeftL l <:+ l := List.dropWhile_suffix _
  have h2 : trimRightL (trimLeftL l) <+: trimLeftL l := by
    rw [trimRightL]
    have h := List.reverse_prefix.mpr
      (List.dropWhile_suffix (l := (trimLeftL l).reverse) isWsp)
    rwa [List.reverse_reverse] at h
  exact (h2.isInfix).trans (h1.isInfix)

theorem hasTok_window {p : List Char} (hp : p ≠ []) {j : List Char} {s k : Nat}
    (h : hasTok p (trimBoth ((j.drop s).take k)) = true) :
    ∃ m, m + p.length ≤ k ∧ p.isPrefixOf (j.drop (s + m)) = true := by
  rw [hasTok, Option.isSome_iff_exists] at h
  obtain ⟨i, hi⟩ := h
  have h1 := firstMatch_isPrefix hi
  obtain ⟨m, hm⟩ := occurs_in_of_infix (trimBoth_within _) h1
  have hp' : 0 < p.length := List.length_pos.mpr hp
  have hlen : m + p.length ≤ k := by
    have h2 := ( List.isPrefixOf_iff_prefix.mp hm).length_le
    rw [List.length_drop] at h2
    have h3 : ((j.drop s).take k).length ≤ k := List.length_take_le k _
    omega
  refine ⟨m, hlen, ?_⟩
  rw [ List.isPrefixOf_iff_prefix] at hm ⊢
  rw [List.drop_take] at hm
  have h4 := hm.trans ( List.take_prefix _ _)
  rwa [List.drop_drop] at h4

theorem buyStep_some {j : List Char} {prev pos q : Nat}
    (hk : findFrom j isBuyKey prev = some pos)
    (hc : findFrom j [':'] pos = some q) :
    buyStep j prev = some (hasTok trueTok (trimBoth (substr j (q + 1) 5))) := by
  simp only [buyStep, hk, hc]

theorem parse_of_chain4 {j : List Char} {p e5 : Nat}
    (hchain : chainEnd j p 4 = some e5) {b : Bool}
    (hb : buyStep j e5 = some b) :
    ∃ sig, ParseSingleTrade j p = some sig ∧ sig.isBuy = b := by
  rcases hs : symStep j p with _ | a
  · simp [chainEnd, chainStep, hs] at hchain
  · rcases he : numStep entryKey j a.2 with _ | b1
    · simp [chainEnd, chainStep, hs, he] at hchain
    · rcases hsl : numStep slKey j b1.2 with _ | c
      · simp [chainEnd, chainStep, hs, he, hsl] at hchain
      · rcases htp : numStep tpKey j c.2 with _ | d
        · simp [chainEnd, chainStep, hs, he, hsl, htp] at hchain
        · rcases hlo : numStep lotKey j d.2 with _ | f
          · simp [chainEnd, chainStep, hs, he, hsl, htp, hlo] at hchain
          · simp [chainEnd, chainStep, hs, he, hsl, htp, hlo] at hchain
            refine ⟨⟨a.1, b1.1, c.1, d.1, f.1, b⟩, ?_, rfl⟩
            unfold ParseSingleTrade
            rw [hs]
            simp only [Option.some_bind, he, hsl, htp, hlo]
            rw [hchain, hb]
            rfl

/-- **C1 amended**: once the direction key and its delimiter are located,
parsing always succeeds (never a parse error); the parsed direction is buy
if and only if the trimmed five-character window following the delimiter
contains the exact lowercase token `true` — in particular, buy only if the
raw text after the delimiter contains the token; any other content (empty,
malformed or differently-cased text) resolves to sell. -/
theorem claim1_amended (j : List Char) (p e5 pos q : Nat)
    (h4 : chainEnd j p 4 = some e5)
    (hk : findFrom j isBuyKey e5 = some pos)
    (hc : findFrom j [':'] pos = some q) :
    ∃ sig, ParseSingleTrade j p = some sig ∧
      sig.isBuy = hasTok trueTok (trimBoth (substr j (q + 1) 5)) ∧
      (sig.isBuy = true → ∃ n, q + 1 ≤ n ∧ trueTok.isPrefixOf (j.drop n) = true) := by
  obtain ⟨sig, hsig, hbuy⟩ := parse_of_chain4 h4 (buyStep_some hk hc)
  refine ⟨sig, hsig, hbuy, ?_⟩
  intro ht
  have hh : hasTok trueTok (trimBoth (substr j (q + 1) 5)) = true := by
    rw [← hbuy, ht]
  obtain ⟨m, hm1, hm2⟩ := hasTok_window (p := trueTok) (by decide)
    (show hasTok trueTok (trimBoth ((j.drop (q + 1)).take 5)) = true from hh)
  exact ⟨q + 1 + m, by omega, hm2⟩

/-- **C10**: the direction decision examines only the five-character window
after the direction key's delimiter.  If the first occurrence of the
lowercase token `true` after the delimiter starts at offset two or more
(for instance preceded by two spaces), the direction resolves to sell even
though the field's raw text does contain the token. -/
theorem claim10_window (j : List Char) (p e5 pos q : Nat)
    (h4 : chainEnd j p 4 = some e5)
    (hk : findFrom j isBuyKey e5 = some pos)
    (hc : findFrom j [':'] pos = some q)
    (h0 : ¬ trueTok.isPrefixOf (j.drop (q + 1)) = true)
    (h1 : ¬ trueTok.isPrefixOf (j.drop (q + 2)) = true)
    (hex : ∃ n, q + 3 ≤ n ∧ trueTok.isPrefixOf (j.drop n) = true) :
    ∃ sig, ParseSingleTrade j p = some sig ∧ sig.isBuy = false := by
  obtain ⟨sig, hsig, hbuy⟩ := parse_of_chain4 h4 (buyStep_some hk hc)
  refine ⟨sig, hsig, ?_⟩
  rw [hbuy]
  by_contra hcon
  rw [Bool.not_eq_false] at hcon
  obtain ⟨m, hm1, hm2⟩ := hasTok_window (p := trueTok) (by decide)
    (show hasTok trueTok (trimBoth ((j.drop (q + 1)).take 5)) = true from hcon)
  have hl4 : trueTok.length = 4 := by decide
  have hm : m = 0 ∨ m = 1 := by omega
  rcases hm with rfl | rfl
  · exact h0 (by rw [show q + 1 + 0 = q + 1 by omega] at hm2; exact hm2)
  · exact h1 (by rw [show q + 1 + 1 = q + 2 by omega] at hm2; exact hm2)

/-! ## Conversion of non-numeric field text -/

theorem trimBoth_subset {l : List Char} {c : Char} (hc : c ∈ trimBoth l) : c ∈ l := by
  rw [trimBoth, trimRightL] at hc
  rw [List.mem_reverse] at hc
  have h1 := List.Sublist.mem hc (List.dropWhile_sublist _)
  rw [List.mem_reverse] at h1
  rw [trimLeftL] at h1
  exact List.Sublist.mem h1 (List.dropWhile_sublist _)

theorem stringToDouble_zero {l : List Char}
    (h : ∀ c ∈ l, c.isDigit = false ∧ c ≠ '-' ∧ c ≠ '+' ∧ c ≠ '.') :
    stringToDouble l = 0 := by
  cases l with
  | nil =>
    rw [stringToDouble, magnitude]
    simp [natOfDigits]
  | cons c t =>
    obtain ⟨hd, hm, hp, hdot⟩ := h c (by simp)
    rw [stringToDouble, if_neg hm, if_neg hp, magnitude]
    have h1 : List.takeWhile Char.isDigit (c :: t) = [] :=
      List.takeWhile_cons_of_neg (by simp [hd])
    have h2 : List.dropWhile Char.isDigit (c :: t) = c :: t :=
      List.dropWhile_cons_of_neg (by simp [hd])
    simp only [h1, h2]
    rw [if_neg hdot]
    simp [natOfDigits]

/-- The standard probe payload: all six fields in declared order, with the
entry price field's value text replaced by `v`. -/
def entryProbe (v : List Char) : List Char :=
  buildRaw ⟨("EURUSD").toList, v, ("1").toList, ("1").toList, ("1").toList, ("true").toList⟩

/-- **C2 amended**: the numeric conversion never fails.  For every isolable
entry value text `v` (nonempty, containing no field separator), the parse
succeeds — `ParseSingleTrade` returns `true` — and the entry price is the
`StringToDouble` conversion of the trimmed text; in particular a fully
non-numeric text converts to `0` rather than propagating a parse failure. -/
theorem claim2_amended (v : List Char) (hne : v ≠ []) (hc : ∀ c ∈ v, c ≠ ',') :
    (ParseSingleTrade (entryProbe v) 0).isSome = true ∧
    (ParseSingleTrade (entryProbe v) 0).map TradeSignal.entry =
      some (stringToDouble (trimBoth v)) ∧
    ((∀ c ∈ v, c.isDigit = false ∧ c ≠ '-' ∧ c ≠ '+' ∧ c ≠ '.') →
      (ParseSingleTrade (entryProbe v) 0).map TradeSignal.entry = some 0) := by
  have hp := parse_buildRaw
    ⟨("EURUSD").toList, v, ("1").toList, ("1").toList, ("1").toList, ("true").toList⟩
    (show ("EURUSD").toList ≠ [] from by decide)
    (show ∀ c ∈ ("EURUSD").toList, c ≠ qc from by decide)
    hne hc
    (show ("1").toList ≠ [] from by decide)
    (show ∀ c ∈ ("1").toList, c ≠ ',' from by decide)
    (show ("1").toList ≠ [] from by decide)
    (show ∀ c ∈ ("1").toList, c ≠ ',' from by decide)
    (show ("1").toList ≠ [] from by decide)
    (show ∀ c ∈ ("1").toList, c ≠ ',' from by decide)
  rw [entryProbe, hp]
  refine ⟨rfl, rfl, ?_⟩
  intro hnn
  have hz : stringToDouble (trimBoth v) = 0 :=
    stringToDouble_zero (fun c hcm => hnn c (trimBoth_subset hcm))
  simp [hz]

/-! ## Concrete payloads, venues and signals used as test vectors -/

/-- A well-formed payload with all six fields in declared order. -/
def rGood : RawInstr :=
  ⟨("EURUSD").toList, ("1.2345").toList, ("1.23").toList, ("1.24").toList,
   ("0.5").toList, ("true").toList⟩

/-- The well-formed payload text built from `rGood`. -/
def pGood : List Char := buildRaw rGood

/-- The signal parsed from `pGood`. -/
def sigGood : TradeSignal :=
  ⟨("EURUSD").toList, stringToDouble (("1.2345").toList),
   stringToDouble (("1.23").toList), stringToDouble (("1.24").toList),
   stringToDouble (("0.5").toList), true⟩

theorem parse_pGood : ParseSingleTrade pGood 0 = some sigGood :=
  parse_buildRaw rGood (by decide) (by decide) (by decide) (by decide) (by decide)
    (by decide) (by decide) (by decide) (by decide) (by decide)

/-- A payload whose direction value is `  true`: the token starts two
characters past the colon. -/
def pTwoSpace : List Char :=
  ("\x7b\x22symbol\x22:\x22EURUSD\x22,\x22entry_price\x22:1.2345,\x22sl_price\x22:1.23,\x22tp_price\x22:1.24,\x22lot_size\x22:0.5,\x22is_buy\x22:  true\x7d").toList

/-- A payload whose entry price value text is the non-numeric `abc`. -/
def rAbc : RawInstr :=
  ⟨("EURUSD").toList, ("abc").toList, ("1").toList, ("1").toList,
   ("1").toList, ("true").toList⟩

/-- The payload text built from `rAbc`. -/
def pAbc : List Char := buildRaw rAbc

/-- A payload with position size `0`. -/
def rLot0 : RawInstr :=
  ⟨("EURUSD").toList, ("1.2345").toList, ("1.23").toList, ("1.24").toList,
   ("0").toList, ("true").toList⟩

/-- The payload text built from `rLot0`. -/
def pLot0 : List Char := buildRaw rLot0

/-- The signal parsed from `pLot0`. -/
def sigLot0 : TradeSignal :=
  ⟨("EURUSD").toList, stringToDouble (("1.2345").toList),
   stringToDouble (("1.23").toList), stringToDouble (("1.24").toList),
   stringToDouble (("0").toList), true⟩

theorem parse_pLot0 : ParseSingleTrade pLot0 0 = some sigLot0 :=
  parse_buildRaw rLot0 (by decide) (by decide) (by decide) (by decide) (by decide)
    (by decide) (by decide) (by decide) (by decide) (by decide)

theorem lot0_eq : sigLot0.lot = 0 := by
  show stringToDouble (("0").toList) = 0
  simp +decide [stringToDouble, magnitude, natOfDigits, digitToNat]

/-- A payload with the six recognized keys but the stop-loss field placed
before the entry price field (out of declared order). -/
def pOut : List Char :=
  ("\x7b\x22symbol\x22:\x22E\x22,\x22sl_price\x22:1,\x22entry_price\x22:1,\x22tp_price\x22:1,\x22lot_size\x22:1,\x22is_buy\x22:true\x7d").toList

/-- A payload with the stop-loss field missing entirely. -/
def pNoSl : List Char :=
  ("\x7b\x22symbol\x22:\x22EURUSD\x22,\x22entry_price\x22:1.2345,\x22tp_price\x22:1.24,\x22lot_size\x22:0.5,\x22is_buy\x22:true\x7d").toList

/-- A venue that knows no instrument: every precision lookup fails. -/
def vNone : Venue := ⟨fun _ => none⟩

/-- A venue that knows `EURUSD` with five price digits. -/
def vStd : Venue := ⟨fun s => if s = ("EURUSD").toList then some 5 else none⟩

/-- A concrete known instruction for the round-trip witness. -/
def instrEx : Instr :=
  ⟨("EURUSD").toList,
   ⟨false, ("1").toList, ("2345").toList⟩,
   ⟨false, ("1").toList, ("23").toList⟩,
   ⟨false, ("1").toList, ("24").toList⟩,
   ⟨false, ("0").toList, ("5").toList⟩, true⟩

/-! ## Counterexamples and witnesses -/

/-- **C1, counterexample**: the claim's if-and-only-if on the field's raw
text is false.  In `pTwoSpace` the direction field's raw text (everything
after the delimiter at index 95) contains the exact lowercase token
`true`, and the signal parses successfully, yet the parsed direction is
sell (`isBuy = false`). -/
theorem claim1_counterexample :
    (ParseSingleTrade pTwoSpace 0).map TradeSignal.isBuy = some false ∧
    hasTok trueTok (pTwoSpace.drop 96) = true := by decide

/-- **C1, witness** for the amended claim, at the payload `pGood` (chain
end 86, key at 87, delimiter at 95). -/
theorem claim1_witness :
    ∃ sig, ParseSingleTrade pGood 0 = some sig ∧
      sig.isBuy = hasTok trueTok (trimBoth (substr pGood (95 + 1) 5)) ∧
      (sig.isBuy = true → ∃ n, 95 + 1 ≤ n ∧ trueTok.isPrefixOf (pGood.drop n) = true) :=
  claim1_amended pGood 0 86 87 95 (by decide) (by decide) (by decide)

/-- **C2, counterexample**: the claim is false.  In `pAbc` the entry price
value text isolated by the parser (the three characters at index 33) is
the non-numeric `abc`, yet `ParseSingleTrade` succeeds instead of
returning `false`. -/
theorem claim2_counterexample :
    (ParseSingleTrade pAbc 0).isSome = true ∧
    substr pAbc 33 3 = ("abc").toList ∧
    (∀ c ∈ ("abc").toList, c.isDigit = false) := by decide

/-- **C2, witness** for the amended claim, at the value text `abc`. -/
theorem claim2_witness :
    (ParseSingleTrade (entryProbe (("abc").toList)) 0).isSome = true ∧
    (ParseSingleTrade (entryProbe (("abc").toList)) 0).map TradeSignal.entry =
      some (stringToDouble (trimBoth (("abc").toList))) ∧
    ((∀ c ∈ (("abc").toList), c.isDigit = false ∧ c ≠ '-' ∧ c ≠ '+' ∧ c ≠ '.') →
      (ParseSingleTrade (entryProbe (("abc").toList)) 0).map TradeSignal.entry =
        some 0) :=
  claim2_amended (("abc").toList) (by decide) (by decide)

/-- **C3, counterexample**: the claim is false.  Against the venue `vNone`,
whose precision lookup fails for every instrument, the cycle on the
well-formed payload `pGood` does not abort: exactly one order submission
is still attempted. -/
theorem claim3_counterexample :
    (∀ s, vNone.precision s = none) ∧
    (submissions (onTimer vNone 200 pGood)).length = 1 :=
  ⟨fun _ => rfl, by decide⟩

/-- **C3, witness** for the amended claim, at `vNone` and `pGood`. -/
theorem claim3_witness :
    onTimer vNone 200 pGood = CycleResult.submitted
      ⟨sigGood.isBuy, sigGood.lot, sigGood.symbol,
       normalizeDouble sigGood.entry 0, normalizeDouble sigGood.sl 0,
       normalizeDouble sigGood.tp 0, tradeComment⟩ ∧
    (submissions (onTimer vNone 200 pGood)).length = 1 :=
  claim3_amended vNone pGood 0 sigGood (by decide) parse_pGood rfl

/-- **C4, counterexample**: the claim is false.  The payload `pLot0`
parses to a signal with position size `0` (not strictly positive), yet
one order submission is still attempted. -/
theorem claim4_counterexample :
    (ParseSingleTrade pLot0 0).map TradeSignal.lot = some 0 ∧
    (submissions (onTimer vStd 200 pLot0)).length = 1 := by
  constructor
  · rw [parse_pLot0, Option.map_some', lot0_eq]
  · decide

/-- **C4, witness** for the amended claim, at `vStd` and `pLot0`. -/
theorem claim4_witness :
    ∃ o : Order, onTimer vStd 200 pLot0 = CycleResult.submitted o ∧
      o.lot = sigLot0.lot ∧
      (submissions (onTimer vStd 200 pLot0)).length = 1 :=
  claim4_amended vStd pLot0 0 sigLot0 (by decide) parse_pLot0 (le_of_eq lot0_eq)

/-- **C5, witness**: the payload `pNoSl` lacks the stop-loss key; the parse
fails from start position 0 and the cycle submits nothing. -/
theorem claim5_witness :
    ParseSingleTrade pNoSl 0 = none ∧
    submissions (onTimer vStd 200 pNoSl) = [] := by
  have h := claim5_missing_field pNoSl slKey (by decide)
    ((firstMatch_none_iff slKey pNoSl).mp (by decide))
  exact ⟨h.1 0, h.2 vStd 200⟩

/-- **C6, witness**: the round-trip at the concrete instruction
`instrEx` (EURUSD, 1.2345 / 1.23 / 1.24, size 0.5, buy). -/
theorem claim6_witness :
    ParseSingleTrade (buildPayload instrEx) 0 =
      some ⟨instrEx.symbol, litValue instrEx.entry, litValue instrEx.sl,
            litValue instrEx.tp, litValue instrEx.lot, instrEx.isBuy⟩ :=
  claim6_roundtrip instrEx (by decide) (by decide) (by decide) (by decide)
    (by decide) (by decide) (by decide) (by decide) (by decide) (by decide)
    (by decide) (by decide) (by decide) (by decide)

/-- **C7, witness**: in `pOut` the stop-loss key occurs only before
position 42, where the entry price field's parse ended; the parse fails. -/
theorem claim7_witness : ParseSingleTrade pOut 0 = none :=
  claim7_order_dependent pOut 0 1 42 (by omega) (by decide)
    (no_occ_of_findFrom_none (by decide))

/-- **C8, witness**: a 404 status aborts the cycle at the transport gate. -/
theorem claim8_witness :
    onTimer vStd 404 pGood = CycleResult.transportFail ∧
    submissions (onTimer vStd 404 pGood) = [] :=
  claim8_transport_gate vStd 404 pGood (by decide)

/-- **C9, witness**: at `vStd` (5 digits for EURUSD) and `pGood`, the
submitted order has the three prices normalized to 5 digits and the size,
symbol and direction unchanged. -/
theorem claim9_witness :
    onTimer vStd 200 pGood = CycleResult.submitted
      ⟨sigGood.isBuy, sigGood.lot, sigGood.symbol,
       normalizeDouble sigGood.entry 5, normalizeDouble sigGood.sl 5,
       normalizeDouble sigGood.tp 5, tradeComment⟩ :=
  claim9_normalizer_frame vStd pGood 0 sigGood 5 (by decide) parse_pGood (by decide)

/-- **C10, witness**: in `pTwoSpace` the token `true` starts at index 98,
two characters past the delimiter at 95; the signal parses and the
direction resolves to sell. -/
theorem claim10_witness :
    ∃ sig, ParseSingleTrade pTwoSpace 0 = some sig ∧ sig.isBuy = false :=
  claim10_window pTwoSpace 0 86 87 95 (by decide) (by decide) (by decide)
    (by decide) (by decide) ⟨98, by omega, by decide⟩
